import Mathlib

/-!
Shallow embedding of the direct multiple-shooting transcription implemented in
`docs/tutorials/python/src/modelica/modelica_ms.py`.  States, controls and
bounds are rational vectors (`List ℚ`).  The symbolic expressions the script
builds for the objective and the constraints are embedded as functions of the
flat decision vector: the symbolic block `xk[k]` (resp. `uk[k]`) of
`v = vertcat(x0, u0, x1, u1, ..., x_nk)` denotes the slice of `v` at the index
range recorded for it by the layout loop, so evaluating the NLP callback at a
numeric vector is function application here.
-/

namespace ModelicaMS

/-- Elementwise scalar multiple of a vector. -/
def smul (c : ℚ) (x : List ℚ) : List ℚ := x.map (fun a => c * a)

/-- Elementwise vector sum. -/
def vadd (x y : List ℚ) : List ℚ := List.zipWith (fun a b => a + b) x y

/-- Elementwise vector difference (used for the continuity residual
`xk_end - xk[k+1]`). -/
def vsub (x y : List ℚ) : List ℚ := List.zipWith (fun a b => a - b) x y

/-- The model data the script extracts before transcription: dimensions
`nx`, `nu` (source lines 136-137), the ODE right-hand side `f` and the
running-cost rate `L` packaged in `ode_fcn` (lines 49-52, 91), the
initial-condition residual `I` packaged in `init_fcn` (lines 53, 95), and the
bounds and initial guesses (lines 68-73). -/
structure Model where
  nx : Nat
  nu : Nat
  f : List ℚ → List ℚ → List ℚ
  L : List ℚ → List ℚ → ℚ
  I : List ℚ → List ℚ
  lbx : List ℚ
  ubx : List ℚ
  lbu : List ℚ
  ubu : List ℚ
  x0 : List ℚ
  u0 : List ℚ

/-- One iteration of the RK4 sub-step loop (source lines 142-148): the state
`xkj` and the quadrature accumulator `xkj_L` are advanced jointly, with the
four stages evaluating `ode_fcn = (f, L)` at the same points.  The loop index
`j` is unused by the body, exactly as in the source. -/
def rk4Loop (f : List ℚ → List ℚ → List ℚ) (L : List ℚ → List ℚ → ℚ)
    (h : ℚ) (uk : List ℚ) (s : List ℚ × ℚ) (_j : Nat) : List ℚ × ℚ :=
  let xkj := s.1
  let k1 := f xkj uk
  let k1L := L xkj uk
  let k2 := f (vadd xkj (smul (h/2) k1)) uk
  let k2L := L (vadd xkj (smul (h/2) k1)) uk
  let k3 := f (vadd xkj (smul (h/2) k2)) uk
  let k3L := L (vadd xkj (smul (h/2) k2)) uk
  let k4 := f (vadd xkj (smul h k3)) uk
  let k4L := L (vadd xkj (smul h k3)) uk
  (vadd xkj (smul (h/6) (vadd (vadd k1 (smul 2 k2)) (vadd (smul 2 k3) k4))),
   s.2 + h/6 * (k1L + 2*k2L + 2*k3L + k4L))

/-- The fixed-step interval integrator (source lines 138-151): `nj` sequential
RK4 sub-steps of size `h = dt/nj`, starting from `xkj = xk` and `xkj_L = 0`,
returning the pair `(xkj, xkj_L)` after the loop. -/
def integrator (f : List ℚ → List ℚ → List ℚ) (L : List ℚ → List ℚ → ℚ)
    (dt : ℚ) (nj : Nat) (xk uk : List ℚ) : List ℚ × ℚ :=
  let h := dt / (nj : ℚ)
  (List.range nj).foldl (rk4Loop f L h uk) (xk, 0)

/-- `valloc(n, nv)` from source line 175: the index range `[nv, nv+n)` paired
with the new running length `nv + n`. -/
def valloc (n nv : Nat) : List Nat × Nat :=
  ((List.range n).map (fun i => nv + i), nv + n)

/-- Accumulator of the layout loop of source lines 170-185: lists of bound and
initial-guess blocks (concatenated by `vertcat` afterwards), the running
length `nv`, and the index map `vind = {'x': ..., 'u': ...}`. -/
structure LayoutState where
  lbv : List (List ℚ)
  ubv : List (List ℚ)
  v0 : List (List ℚ)
  nv : Nat
  vindx : List (List Nat)
  vindu : List (List Nat)

/-- The accumulator before the loop (source lines 170-174). -/
def layoutInit : LayoutState := ⟨[], [], [], 0, [], []⟩

/-- One iteration of the layout loop (source lines 176-182): allocate the
state block of interval `k`, then its control block.  The index `k` is used in
the source only to pick the symbol `xk[k]`/`uk[k]`; it does not influence the
bounds, guesses or index map. -/
def layoutStep (m : Model) (st : LayoutState) (_k : Nat) : LayoutState :=
  let a := valloc m.nx st.nv
  let st1 : LayoutState :=
    ⟨st.lbv ++ [m.lbx], st.ubv ++ [m.ubx], st.v0 ++ [m.x0], a.2,
     st.vindx ++ [a.1], st.vindu⟩
  let b := valloc m.nu st1.nv
  ⟨st1.lbv ++ [m.lbu], st1.ubv ++ [m.ubu], st1.v0 ++ [m.u0], b.2,
   st1.vindx, st1.vindu ++ [b.1]⟩

/-- The full layout loop followed by the trailing terminal-state block
(source lines 176-185, `v.append(xk[-1])`). -/
def buildLayoutState (m : Model) (nk : Nat) : LayoutState :=
  let st := (List.range nk).foldl (layoutStep m) layoutInit
  let a := valloc m.nx st.nv
  ⟨st.lbv ++ [m.lbx], st.ubv ++ [m.ubx], st.v0 ++ [m.x0], a.2,
   st.vindx ++ [a.1], st.vindu⟩

/-- The layout after the `vertcat` of source line 187: flat bound and guess
vectors, the total length `nv`, and the index map. -/
structure Layout where
  lbv : List ℚ
  ubv : List ℚ
  v0 : List ℚ
  nv : Nat
  vindx : List (List Nat)
  vindu : List (List Nat)

/-- Build the flattened layout (source lines 170-187). -/
def buildLayout (m : Model) (nk : Nat) : Layout :=
  let st := buildLayoutState m nk
  ⟨st.lbv.flatten, st.ubv.flatten, st.v0.flatten, st.nv, st.vindx, st.vindu⟩

/-- Closed form of the index range `vind['x'][k]` allocated by the layout
loop. -/
def xrange (nx nu k : Nat) : List Nat :=
  (List.range nx).map (fun i => k * (nx + nu) + i)

/-- Closed form of the index range `vind['u'][k]` allocated by the layout
loop. -/
def urange (nx nu k : Nat) : List Nat :=
  (List.range nu).map (fun i => k * (nx + nu) + nx + i)

/-- `w[[ind]]`: the entries of `w` at a list of indices, as used for solution
extraction in source lines 218-220. -/
def extractComp (w : List ℚ) (ind : List Nat) : List ℚ :=
  ind.map (fun i => w.getD i 0)

/-- The value of the symbolic state block `xk[k]` at a flat decision vector
`v`: `xk[k]` occupies the positions `xrange m.nx m.nu k` of
`v = vertcat(x0, u0, ..., x_nk)` (source lines 167, 179, 185, 187). -/
def xblockOf (m : Model) (v : List ℚ) (k : Nat) : List ℚ :=
  extractComp v (xrange m.nx m.nu k)

/-- The value of the symbolic control block `uk[k]` at a flat decision vector
(source lines 168, 182, 187). -/
def ublockOf (m : Model) (v : List ℚ) (k : Nat) : List ℚ :=
  extractComp v (urange m.nx m.nu k)

/-- The objective/constraint accumulation of source lines 190-200, evaluated
at a flat decision vector `v`: starting from `J = 0` and
`eq = [init_fcn(xk[0])]`, each interval `k` adds the cost increment of
`integrator(xk[k], uk[k])` to `J`, and appends the continuity residual
`xk_end - xk[k+1]` to `eq` only when `k+1 < nk`. -/
def assembleJEq (m : Model) (dt : ℚ) (nj nk : Nat) (v : List ℚ) :
    ℚ × List (List ℚ) :=
  (List.range nk).foldl
    (fun s k =>
      let r := integrator m.f m.L dt nj (xblockOf m v k) (ublockOf m v k)
      (s.1 + r.2, if k + 1 < nk then s.2 ++ [vsub r.1 (xblockOf m v (k + 1))] else s.2))
    (0, [m.I (xblockOf m v 0)])

/-- The NLP objective `J` as a function of the decision vector. -/
def J (m : Model) (dt : ℚ) (nj nk : Nat) (v : List ℚ) : ℚ :=
  (assembleJEq m dt nj nk v).1

/-- The NLP constraint blocks `eq` as a function of the decision vector. -/
def eqList (m : Model) (dt : ℚ) (nj nk : Nat) (v : List ℚ) : List (List ℚ) :=
  (assembleJEq m dt nj nk v).2

/-- The NLP package handed to the solver (source lines 205-213): the objective
and constraint functions, the variable bounds and initial guess, and the
scalar constraint bounds that `solver.setInput(0, "lbg")` and
`solver.setInput(0, "ubg")` broadcast to every constraint entry. -/
structure NlpProblem where
  objective : List ℚ → ℚ
  constraints : List ℚ → List (List ℚ)
  lbv : List ℚ
  ubv : List ℚ
  v0 : List ℚ
  lbg : ℚ
  ubg : ℚ

/-- Assemble the whole NLP from the model and the horizon configuration
(`dt = tf/nk`, source line 107). -/
def transcribe (m : Model) (tf : ℚ) (nk nj : Nat) : NlpProblem :=
  let dt := tf / (nk : ℚ)
  let ly := buildLayout m nk
  ⟨J m dt nj nk, eqList m dt nj nk, ly.lbv, ly.ubv, ly.v0, 0, 0⟩

/-- The error kind the spec demands for invalid configuration. -/
inductive TranscribeError where
  | configurationError : TranscribeError

/-- Modelled from the spec: the source script hardcodes `nk = 20` (line 106)
and performs no input validation, so the `ConfigurationError` the spec demands
("`nk` must be ≥ 1; `nk = 0` is invalid input (`ConfigurationError`)", raised
"before any numeric work") is missing from the source.  This checked entry
point guards the transcription with exactly that validation: the guard is the
first thing evaluated, and on `nk < 1` no layout, integration or constraint
construction is reached. -/
def transcribeChecked (m : Model) (tf : ℚ) (nk nj : Nat) :
    Except TranscribeError NlpProblem :=
  if nk < 1 then Except.error TranscribeError.configurationError
  else Except.ok (transcribe m tf nk nj)

/-- Per-component state trajectory extracted from a solver output `v`: sample
`k` is `v[vind['x'][k][i]]` for `k` in `0..nk` (source lines 218-219, where it
is written out for components `i = 0` and `i = 1`). -/
def stateTraj (m : Model) (nk i : Nat) (v : List ℚ) : List ℚ :=
  extractComp v
    ((List.range (nk + 1)).map (fun k => ((buildLayout m nk).vindx.getD k []).getD i 0))

/-- Per-component control trajectory extracted from a solver output `v`:
sample `k` is `v[vind['u'][k][i]]` for `k` in `0..nk-1` (source line 220,
written out for component `i = 0`). -/
def ctrlTraj (m : Model) (nk i : Nat) (v : List ℚ) : List ℚ :=
  extractComp v
    ((List.range nk).map (fun k => ((buildLayout m nk).vindu.getD k []).getD i 0))

/-- The plotting grid `linspace(0, tf, nk+1)` of source line 225: `nk + 1`
equally spaced times `k * (tf/nk)`. -/
def tgrid (tf : ℚ) (nk : Nat) : List ℚ :=
  (List.range (nk + 1)).map (fun (k : Nat) => (k : ℚ) * (tf / (nk : ℚ)))

/-- The RK4 recursion exactly as the spec's §4.1 pseudocode states it:
`x_0 = x_start`, `L_0 = 0`, and step `j+1` computes
`k1 = f(x_j, u)`, `k2 = f(x_j + h/2*k1, u)`, `k3 = f(x_j + h/2*k2, u)`,
`k4 = f(x_j + h*k3, u)`, the same stage evaluations of `L`, then
`x_{j+1} = x_j + h/6*(k1 + 2*k2 + 2*k3 + k4)` and
`L_{j+1} = L_j + h/6*(k1_L + 2*k2_L + 2*k3_L + k4_L)`. -/
def specRK4 (f : List ℚ → List ℚ → List ℚ) (L : List ℚ → List ℚ → ℚ)
    (h : ℚ) (u xstart : List ℚ) : Nat → List ℚ × ℚ
  | 0 => (xstart, 0)
  | j + 1 =>
    let p := specRK4 f L h u xstart j
    let k1 := f p.1 u
    let k1L := L p.1 u
    let k2 := f (vadd p.1 (smul (h/2) k1)) u
    let k2L := L (vadd p.1 (smul (h/2) k1)) u
    let k3 := f (vadd p.1 (smul (h/2) k2)) u
    let k3L := L (vadd p.1 (smul (h/2) k2)) u
    let k4 := f (vadd p.1 (smul h k3)) u
    let k4L := L (vadd p.1 (smul h k3)) u
    (vadd p.1 (smul (h/6) (vadd (vadd k1 (smul 2 k2)) (vadd (smul 2 k3) k4))),
     p.2 + h/6 * (k1L + 2*k2L + 2*k3L + k4L))

/-- A tiny concrete model (`nx = nu = 1`, constant dynamics and cost, identity
initial residual) used to evaluate the transcription at concrete inputs. -/
def trivialModel : Model :=
  ⟨1, 1, fun _ _ => [1], fun _ _ => 1, fun x => [x.getD 0 0],
   [0], [1], [0], [1], [0], [0]⟩

/-! ### Closed form of the layout loop -/

/-- The accumulator reached after `k` iterations of the layout loop. -/
def layoutStateAt (m : Model) (k : Nat) : LayoutState :=
  ⟨(List.replicate k [m.lbx, m.lbu]).flatten,
   (List.replicate k [m.ubx, m.ubu]).flatten,
   (List.replicate k [m.x0, m.u0]).flatten,
   k * (m.nx + m.nu),
   (List.range k).map (xrange m.nx m.nu),
   (List.range k).map (urange m.nx m.nu)⟩

lemma foldl_layoutStep (m : Model) (k : Nat) :
    (List.range k).foldl (layoutStep m) layoutInit = layoutStateAt m k := by
  induction k with
  | zero => simp [layoutStateAt, layoutInit]
  | succ k ih =>
    rw [List.range_succ, List.foldl_append, ih]
    simp only [List.foldl_cons, List.foldl_nil, layoutStep, layoutStateAt, valloc,
      LayoutState.mk.injEq]
    refine ⟨?_, ?_, ?_, ?_, ?_, ?_⟩
    · simp [List.replicate_succ']
    · simp [List.replicate_succ']
    · simp [List.replicate_succ']
    · ring
    · rw [List.range_succ]; simp [xrange]
    · rw [List.range_succ]; simp [urange]

lemma buildLayoutState_closed (m : Model) (nk : Nat) :
    buildLayoutState m nk =
      ⟨(List.replicate nk [m.lbx, m.lbu]).flatten ++ [m.lbx],
       (List.replicate nk [m.ubx, m.ubu]).flatten ++ [m.ubx],
       (List.replicate nk [m.x0, m.u0]).flatten ++ [m.x0],
       nk * (m.nx + m.nu) + m.nx,
       (List.range (nk + 1)).map (xrange m.nx m.nu),
       (List.range nk).map (urange m.nx m.nu)⟩ := by
  unfold buildLayoutState
  rw [foldl_layoutStep]
  simp only [layoutStateAt, valloc, LayoutState.mk.injEq]
  refine ⟨trivial, trivial, trivial, trivial, ?_, trivial⟩
  rw [List.range_succ]; simp [xrange]

lemma flatten_replicate_pair {α : Type} (a b : List α) (n : Nat) :
    ((List.replicate n [a, b]).flatten).flatten = (List.replicate n (a ++ b)).flatten := by
  induction n with
  | zero => rfl
  | succ n ih => simp [List.replicate_succ, ih]

lemma buildLayout_lbv (m : Model) (nk : Nat) :
    (buildLayout m nk).lbv = (List.replicate nk (m.lbx ++ m.lbu)).flatten ++ m.lbx := by
  unfold buildLayout
  rw [buildLayoutState_closed]
  simp [flatten_replicate_pair]

lemma buildLayout_ubv (m : Model) (nk : Nat) :
    (buildLayout m nk).ubv = (List.replicate nk (m.ubx ++ m.ubu)).flatten ++ m.ubx := by
  unfold buildLayout
  rw [buildLayoutState_closed]
  simp [flatten_replicate_pair]

lemma buildLayout_v0 (m : Model) (nk : Nat) :
    (buildLayout m nk).v0 = (List.replicate nk (m.x0 ++ m.u0)).flatten ++ m.x0 := by
  unfold buildLayout
  rw [buildLayoutState_closed]
  simp [flatten_replicate_pair]

lemma buildLayout_nv (m : Model) (nk : Nat) :
    (buildLayout m nk).nv = nk * (m.nx + m.nu) + m.nx := by
  unfold buildLayout
  rw [buildLayoutState_closed]

lemma buildLayout_vindx (m : Model) (nk : Nat) :
    (buildLayout m nk).vindx = (List.range (nk + 1)).map (xrange m.nx m.nu) := by
  unfold buildLayout
  rw [buildLayoutState_closed]

lemma buildLayout_vindu (m : Model) (nk : Nat) :
    (buildLayout m nk).vindu = (List.range nk).map (urange m.nx m.nu) := by
  unfold buildLayout
  rw [buildLayoutState_closed]

/-! ### Reading blocks out of the flat bound/guess vectors -/

lemma getD_repBlock_left (a b t : List ℚ) (n k i : Nat) (hk : k < n) (hi : i < a.length) :
    ((List.replicate n (a ++ b)).flatten ++ t).getD (k * (a.length + b.length) + i) 0 =
      a.getD i 0 := by
  induction n generalizing k with
  | zero => omega
  | succ n ih =>
    rw [List.replicate_succ, List.flatten_cons, List.append_assoc]
    cases k with
    | zero =>
      rw [Nat.zero_mul, Nat.zero_add,
        List.getD_append _ _ _ _ (by simp; omega),
        List.getD_append _ _ _ _ hi]
    | succ k =>
      rw [List.getD_append_right _ _ _ _ (by simp [Nat.succ_mul]; omega)]
      have harith : (k + 1) * (a.length + b.length) + i - (a ++ b).length =
          k * (a.length + b.length) + i := by simp [Nat.succ_mul]; omega
      rw [harith]
      exact ih k (by omega)

lemma getD_repBlock_right (a b t : List ℚ) (n k i : Nat) (hk : k < n) (hi : i < b.length) :
    ((List.replicate n (a ++ b)).flatten ++ t).getD
        (k * (a.length + b.length) + a.length + i) 0 = b.getD i 0 := by
  induction n generalizing k with
  | zero => omega
  | succ n ih =>
    rw [List.replicate_succ, List.flatten_cons, List.append_assoc]
    cases k with
    | zero =>
      rw [Nat.zero_mul, Nat.zero_add,
        List.getD_append _ _ _ _ (by simp; omega),
        List.getD_append_right _ _ _ _ (by omega)]
      congr 1
      omega
    | succ k =>
      rw [List.getD_append_right _ _ _ _ (by simp [Nat.succ_mul]; omega)]
      have harith : (k + 1) * (a.length + b.length) + a.length + i - (a ++ b).length =
          k * (a.length + b.length) + a.length + i := by simp [Nat.succ_mul]; omega
      rw [harith]
      exact ih k (by omega)

lemma getD_repBlock_tail (a b t : List ℚ) (n i : Nat) :
    ((List.replicate n (a ++ b)).flatten ++ t).getD (n * (a.length + b.length) + i) 0 =
      t.getD i 0 := by
  induction n with
  | zero => simp
  | succ n ih =>
    rw [List.replicate_succ, List.flatten_cons, List.append_assoc,
      List.getD_append_right _ _ _ _ (by simp [Nat.succ_mul]; omega)]
    have harith : (n + 1) * (a.length + b.length) + i - (a ++ b).length =
        n * (a.length + b.length) + i := by simp [Nat.succ_mul]; omega
    rw [harith]
    exact ih

lemma map_getD_range (w : List ℚ) :
    (List.range w.length).map (fun i => w.getD i 0) = w := by
  apply List.ext_getElem
  · simp
  · intro n h1 h2
    simp only [List.getElem_map, List.getElem_range]
    exact List.getD_eq_getElem w 0 h2

lemma extract_state_block (a b : List ℚ) (nx nu n k : Nat) (hk : k ≤ n)
    (ha : a.length = nx) (hb : b.length = nu) :
    extractComp ((List.replicate n (a ++ b)).flatten ++ a) (xrange nx nu k) = a := by
  unfold extractComp xrange
  have hstep : ∀ i ∈ List.range nx,
      ((List.replicate n (a ++ b)).flatten ++ a).getD (k * (nx + nu) + i) 0 = a.getD i 0 := by
    intro i hi
    have hi' : i < a.length := by rw [ha]; exact List.mem_range.mp hi
    rcases Nat.lt_or_ge k n with hlt | hge
    · rw [← ha, ← hb]
      exact getD_repBlock_left a b a n k i hlt hi'
    · have hkn : k = n := by omega
      subst hkn
      rw [← ha, ← hb]
      exact getD_repBlock_tail a b a k i
  rw [List.map_map]
  calc (List.range nx).map ((fun j => ((List.replicate n (a ++ b)).flatten ++ a).getD j 0) ∘
          fun i => k * (nx + nu) + i)
      = (List.range nx).map (fun i => a.getD i 0) := List.map_congr_left hstep
    _ = a := by rw [← ha]; exact map_getD_range a

lemma extract_ctrl_block (a b : List ℚ) (nx nu n k : Nat) (hk : k < n)
    (ha : a.length = nx) (hb : b.length = nu) :
    extractComp ((List.replicate n (a ++ b)).flatten ++ a) (urange nx nu k) = b := by
  unfold extractComp urange
  have hstep : ∀ i ∈ List.range nu,
      ((List.replicate n (a ++ b)).flatten ++ a).getD (k * (nx + nu) + nx + i) 0 =
        b.getD i 0 := by
    intro i hi
    have hi' : i < b.length := by rw [hb]; exact List.mem_range.mp hi
    have := getD_repBlock_right a b a n k i hk hi'
    rw [ha, hb] at this
    exact this
  rw [List.map_map]
  calc (List.range nu).map ((fun j => ((List.replicate n (a ++ b)).flatten ++ a).getD j 0) ∘
          fun i => k * (nx + nu) + nx + i)
      = (List.range nu).map (fun i => b.getD i 0) := List.map_congr_left hstep
    _ = b := by rw [← hb]; exact map_getD_range b

lemma flat_blocks_length (a b : List ℚ) (n : Nat) :
    ((List.replicate n (a ++ b)).flatten ++ a).length = n * (a.length + b.length) + a.length := by
  induction n with
  | zero => simp
  | succ n ih => simp_all [List.replicate_succ, Nat.succ_mul]; omega

/-! ### The index map partitions the decision-vector index set -/

lemma xrange_append_urange (nx nu k : Nat) :
    xrange nx nu k ++ urange nx nu k =
      (List.range (nx + nu)).map (fun i => k * (nx + nu) + i) := by
  rw [List.range_add, List.map_append, List.map_map]
  unfold xrange urange
  congr 1
  exact List.map_congr_left fun i _ => by simp; omega

lemma interleave_eq_range (nx nu n : Nat) :
    (List.range n).flatMap (fun k => xrange nx nu k ++ urange nx nu k) =
      List.range (n * (nx + nu)) := by
  induction n with
  | zero => simp
  | succ n ih =>
    rw [List.range_succ, List.flatMap_append, ih]
    have hs : (n + 1) * (nx + nu) = n * (nx + nu) + (nx + nu) := by ring
    rw [hs, List.range_add]
    simp [xrange_append_urange]

lemma interleave_with_tail_eq_range (nx nu n : Nat) :
    (List.range n).flatMap (fun k => xrange nx nu k ++ urange nx nu k) ++ xrange nx nu n =
      List.range (n * (nx + nu) + nx) := by
  rw [interleave_eq_range, List.range_add]
  unfold xrange
  rfl

lemma flatten_interleave_perm (X U : Nat → List Nat) (n : Nat) :
    List.Perm ((((List.range n).map X).flatten) ++ (((List.range n).map U).flatten))
      ((List.range n).flatMap (fun k => X k ++ U k)) := by
  induction n with
  | zero => simp
  | succ n ih =>
    rw [List.range_succ]
    simp only [List.map_append, List.flatten_append, List.flatMap_append,
      List.map_cons, List.map_nil, List.flatten_cons, List.flatten_nil,
      List.flatMap_cons, List.flatMap_nil, List.append_nil, List.append_assoc]
    have hmid : List.Perm
        (X n ++ (((List.range n).map U).flatten ++ U n))
        (((List.range n).map U).flatten ++ (X n ++ U n)) := by
      have h := List.Perm.append_right (U n)
        (@List.perm_append_comm ℕ (X n) (((List.range n).map U).flatten))
      rwa [List.append_assoc, List.append_assoc] at h
    refine (hmid.append_left _).trans ?_
    have h2 := List.Perm.append_right (X n ++ U n) ih
    rwa [List.append_assoc] at h2

lemma vind_blocks_perm_range (m : Model) (nk : Nat) :
    List.Perm (((buildLayout m nk).vindx ++ (buildLayout m nk).vindu).flatten)
      (List.range ((buildLayout m nk).nv)) := by
  rw [buildLayout_vindx, buildLayout_vindu, buildLayout_nv, List.flatten_append]
  have h1 : ((List.range (nk + 1)).map (xrange m.nx m.nu)).flatten =
      ((List.range nk).map (xrange m.nx m.nu)).flatten ++ xrange m.nx m.nu nk := by
    rw [List.range_succ]
    simp
  rw [h1, List.append_assoc]
  have hswap : List.Perm
      (xrange m.nx m.nu nk ++ ((List.range nk).map (urange m.nx m.nu)).flatten)
      (((List.range nk).map (urange m.nx m.nu)).flatten ++ xrange m.nx m.nu nk) :=
    List.perm_append_comm
  refine (hswap.append_left _).trans ?_
  rw [← List.append_assoc]
  refine ((flatten_interleave_perm (xrange m.nx m.nu) (urange m.nx m.nu) nk).append_right _).trans ?_
  rw [interleave_with_tail_eq_range]

/-! ### Integrator lemmas -/

lemma foldl_rk4 (f : List ℚ → List ℚ → List ℚ) (L : List ℚ → List ℚ → ℚ)
    (h : ℚ) (u x0 : List ℚ) (n : Nat) :
    (List.range n).foldl (rk4Loop f L h u) (x0, 0) = specRK4 f L h u x0 n := by
  induction n with
  | zero => simp [specRK4]
  | succ n ih =>
    rw [List.range_succ, List.foldl_append, ih]
    simp only [List.foldl_cons, List.foldl_nil]
    rfl

lemma rk4Loop_fst_indep (f : List ℚ → List ℚ → List ℚ) (L L' : List ℚ → List ℚ → ℚ)
    (h : ℚ) (u : List ℚ) (l : List Nat) (x : List ℚ) (a a' : ℚ) :
    (l.foldl (rk4Loop f L h u) (x, a)).1 = (l.foldl (rk4Loop f L' h u) (x, a')).1 := by
  induction l generalizing x a a' with
  | nil => rfl
  | cons j t ih =>
    simp only [List.foldl_cons]
    exact ih _ _ _

lemma vadd_length (x y : List ℚ) : (vadd x y).length = min x.length y.length :=
  List.length_zipWith _ _ _

lemma smul_length (c : ℚ) (x : List ℚ) : (smul c x).length = x.length :=
  List.length_map _ _

lemma rk4Loop_fst_length (f : List ℚ → List ℚ → List ℚ) (L : List ℚ → List ℚ → ℚ)
    (h : ℚ) (u : List ℚ) (n : Nat) (hf : ∀ x v, (f x v).length = n)
    (s : List ℚ × ℚ) (j : Nat) (hs : s.1.length = n) :
    ((rk4Loop f L h u s j).1).length = n := by
  simp [rk4Loop, vadd_length, smul_length, hf, hs]

lemma foldl_rk4_fst_length (f : List ℚ → List ℚ → List ℚ) (L : List ℚ → List ℚ → ℚ)
    (h : ℚ) (u : List ℚ) (n : Nat) (hf : ∀ x v, (f x v).length = n)
    (l : List Nat) (s : List ℚ × ℚ) (hs : s.1.length = n) :
    ((l.foldl (rk4Loop f L h u) s).1).length = n := by
  induction l generalizing s with
  | nil => exact hs
  | cons j t ih =>
    simp only [List.foldl_cons]
    exact ih _ (rk4Loop_fst_length f L h u n hf s j hs)

lemma integrator_fst_length (f : List ℚ → List ℚ → List ℚ) (L : List ℚ → List ℚ → ℚ)
    (dt : ℚ) (nj : Nat) (xk uk : List ℚ) (n : Nat)
    (hf : ∀ x v, (f x v).length = n) (hx : xk.length = n) :
    ((integrator f L dt nj xk uk).1).length = n := by
  unfold integrator
  exact foldl_rk4_fst_length f L (dt / (nj : ℚ)) uk n hf (List.range nj) (xk, 0) hx

/-! ### Closed form of the objective/constraint loop -/

lemma assemble_loop (m : Model) (dt : ℚ) (nj nk : Nat) (v : List ℚ) (j : Nat) (hj : j ≤ nk)
    (s0 : ℚ × List (List ℚ)) :
    (List.range j).foldl
      (fun s k =>
        let r := integrator m.f m.L dt nj (xblockOf m v k) (ublockOf m v k)
        (s.1 + r.2, if k + 1 < nk then s.2 ++ [vsub r.1 (xblockOf m v (k + 1))] else s.2))
      s0 =
    (s0.1 + ((List.range j).map (fun k =>
        (integrator m.f m.L dt nj (xblockOf m v k) (ublockOf m v k)).2)).sum,
     s0.2 ++ (List.range (min j (nk - 1))).map (fun k =>
        vsub (integrator m.f m.L dt nj (xblockOf m v k) (ublockOf m v k)).1
          (xblockOf m v (k + 1)))) := by
  induction j generalizing s0 with
  | zero => simp
  | succ j ih =>
    have hj' : j ≤ nk := by omega
    rw [List.range_succ, List.foldl_append, ih hj']
    simp only [List.foldl_cons, List.foldl_nil]
    by_cases hc : j + 1 < nk
    · have hmin1 : min j (nk - 1) = j := by omega
      have hmin2 : min (j + 1) (nk - 1) = j + 1 := by omega
      rw [hmin1, hmin2, if_pos hc]
      simp [List.range_succ, List.sum_append, List.map_append, List.append_assoc, add_assoc]
    · have hmin1 : min j (nk - 1) = min (j + 1) (nk - 1) := by omega
      rw [if_neg hc, ← hmin1]
      simp [List.range_succ, List.sum_append, add_assoc]

lemma assembleJEq_closed (m : Model) (dt : ℚ) (nj nk : Nat) (v : List ℚ) :
    assembleJEq m dt nj nk v =
      (((List.range nk).map (fun k =>
          (integrator m.f m.L dt nj (xblockOf m v k) (ublockOf m v k)).2)).sum,
       m.I (xblockOf m v 0) ::
         (List.range (nk - 1)).map (fun k =>
           vsub (integrator m.f m.L dt nj (xblockOf m v k) (ublockOf m v k)).1
             (xblockOf m v (k + 1)))) := by
  unfold assembleJEq
  rw [assemble_loop m dt nj nk v nk (le_refl nk) (0, [m.I (xblockOf m v 0)])]
  have hmin : min nk (nk - 1) = nk - 1 := by omega
  rw [hmin]
  simp

/-! ### Block access and congruence lemmas -/

lemma xblockOf_length (m : Model) (v : List ℚ) (k : Nat) :
    (xblockOf m v k).length = m.nx := by
  simp [xblockOf, extractComp, xrange]

lemma ublockOf_length (m : Model) (v : List ℚ) (k : Nat) :
    (ublockOf m v k).length = m.nu := by
  simp [ublockOf, extractComp, urange]

lemma xblockOf_congr (m : Model) (nk : Nat) (v w : List ℚ) (k : Nat) (hk : k < nk)
    (hagree : ∀ i : Nat, i < nk * (m.nx + m.nu) ∨ nk * (m.nx + m.nu) + m.nx ≤ i →
      v.getD i 0 = w.getD i 0) :
    xblockOf m v k = xblockOf m w k := by
  unfold xblockOf extractComp xrange
  rw [List.map_map, List.map_map]
  apply List.map_congr_left
  intro i hi
  have hi' : i < m.nx := List.mem_range.mp hi
  simp only [Function.comp_apply]
  apply hagree
  left
  have hs1 : k * (m.nx + m.nu) + i < (k + 1) * (m.nx + m.nu) := by
    rw [Nat.succ_mul]; omega
  have hs2 : (k + 1) * (m.nx + m.nu) ≤ nk * (m.nx + m.nu) :=
    Nat.mul_le_mul_right _ hk
  omega

lemma ublockOf_congr (m : Model) (nk : Nat) (v w : List ℚ) (k : Nat) (hk : k < nk)
    (hagree : ∀ i : Nat, i < nk * (m.nx + m.nu) ∨ nk * (m.nx + m.nu) + m.nx ≤ i →
      v.getD i 0 = w.getD i 0) :
    ublockOf m v k = ublockOf m w k := by
  unfold ublockOf extractComp urange
  rw [List.map_map, List.map_map]
  apply List.map_congr_left
  intro i hi
  have hi' : i < m.nu := List.mem_range.mp hi
  simp only [Function.comp_apply]
  apply hagree
  left
  have hs1 : k * (m.nx + m.nu) + m.nx + i < (k + 1) * (m.nx + m.nu) := by
    rw [Nat.succ_mul]; omega
  have hs2 : (k + 1) * (m.nx + m.nu) ≤ nk * (m.nx + m.nu) :=
    Nat.mul_le_mul_right _ hk
  omega

lemma assembleJEq_congr (m : Model) (dt : ℚ) (nj nk : Nat) (v w : List ℚ) (hnk : 1 ≤ nk)
    (hagree : ∀ i : Nat, i < nk * (m.nx + m.nu) ∨ nk * (m.nx + m.nu) + m.nx ≤ i →
      v.getD i 0 = w.getD i 0) :
    assembleJEq m dt nj nk v = assembleJEq m dt nj nk w := by
  unfold assembleJEq
  rw [xblockOf_congr m nk v w 0 (by omega) hagree]
  apply List.foldl_ext
  intro s k hk
  have hk' : k < nk := List.mem_range.mp hk
  dsimp only
  rw [xblockOf_congr m nk v w k hk' hagree, ublockOf_congr m nk v w k hk' hagree]
  by_cases hc : k + 1 < nk
  · rw [if_pos hc, if_pos hc, xblockOf_congr m nk v w (k + 1) hc hagree]
  · rw [if_neg hc, if_neg hc]

lemma buildLayout_vindx_getD (m : Model) (nk k : Nat) (hk : k ≤ nk) :
    (buildLayout m nk).vindx.getD k [] = xrange m.nx m.nu k := by
  rw [buildLayout_vindx, List.getD_eq_getElem _ _ (by simp; omega)]
  simp

lemma buildLayout_vindu_getD (m : Model) (nk k : Nat) (hk : k < nk) :
    (buildLayout m nk).vindu.getD k [] = urange m.nx m.nu k := by
  rw [buildLayout_vindu, List.getD_eq_getElem _ _ (by simp; omega)]
  simp

lemma xrange_getD (nx nu k i : Nat) (hi : i < nx) :
    (xrange nx nu k).getD i 0 = k * (nx + nu) + i := by
  unfold xrange
  rw [List.getD_eq_getElem _ _ (by simp [hi])]
  simp

lemma urange_getD (nx nu k i : Nat) (hi : i < nu) :
    (urange nx nu k).getD i 0 = k * (nx + nu) + nx + i := by
  unfold urange
  rw [List.getD_eq_getElem _ _ (by simp [hi])]
  simp

lemma xblockOf_getD (m : Model) (v : List ℚ) (k i : Nat) (hi : i < m.nx) :
    (xblockOf m v k).getD i 0 = v.getD (k * (m.nx + m.nu) + i) 0 := by
  unfold xblockOf extractComp xrange
  rw [List.map_map, List.getD_eq_getElem _ _ (by simp [hi])]
  simp

lemma ublockOf_getD (m : Model) (v : List ℚ) (k i : Nat) (hi : i < m.nu) :
    (ublockOf m v k).getD i 0 = v.getD (k * (m.nx + m.nu) + m.nx + i) 0 := by
  unfold ublockOf extractComp urange
  rw [List.map_map, List.getD_eq_getElem _ _ (by simp [hi])]
  simp

/-! ### Claim theorems -/

/-- C1 is false on the code: with `nk = 1` the assembled NLP contains exactly
one constraint block — the initial condition — and no continuity constraint at
all, whereas the claim demands a continuity constraint for every interval
`k` in `0..nk-1` including `k = nk-1` (which would give `1 + nk = 2` blocks
here).  The loop guard `if k+1<nk` of source line 200 skips the last interval,
so its predicted terminal state is never compared against the trailing
terminal-state block. -/
theorem last_interval_continuity_counterexample :
    ((transcribe trivialModel 1 1 1).constraints [5, 6, 7]).length = 1 ∧
    ¬ ((transcribe trivialModel 1 1 1).constraints [5, 6, 7]).length = 1 + 1 := by
  have h1 : ((transcribe trivialModel 1 1 1).constraints [5, 6, 7]).length = 1 := rfl
  exact ⟨h1, fun hcontra => by omega⟩

/-- C1 (amended): for every `nk ≥ 1`, the constraint list is the
initial-condition block followed by continuity residuals
`x_end(k) - x_block[k+1]` exactly for the intervals `k` in `0..nk-2` (those
with `k+1 < nk`); no continuity constraint is added for the last interval
`k = nk-1`, so the trailing terminal-state block is not linked to any
interval's predicted terminal state. -/
theorem continuity_blocks_structure (m : Model) (tf : ℚ) (nk nj : Nat) (v : List ℚ)
    (hnk : 1 ≤ nk) :
    (transcribe m tf nk nj).constraints v =
      m.I (xblockOf m v 0) ::
        (List.range (nk - 1)).map (fun k =>
          vsub (integrator m.f m.L (tf / (nk : ℚ)) nj (xblockOf m v k) (ublockOf m v k)).1
            (xblockOf m v (k + 1))) := by
  show eqList m (tf / (nk : ℚ)) nj nk v = _
  unfold eqList
  rw [assembleJEq_closed]

theorem continuity_blocks_structure_witness :
    (transcribe trivialModel 1 1 1).constraints [5, 6, 7] =
      trivialModel.I (xblockOf trivialModel [5, 6, 7] 0) ::
        (List.range (1 - 1)).map (fun k =>
          vsub (integrator trivialModel.f trivialModel.L ((1 : ℚ) / ((1 : Nat) : ℚ)) 1
              (xblockOf trivialModel [5, 6, 7] k) (ublockOf trivialModel [5, 6, 7] k)).1
            (xblockOf trivialModel [5, 6, 7] (k + 1))) :=
  continuity_blocks_structure trivialModel 1 1 1 [5, 6, 7] (by decide)

/-- C2: for every `nk ≥ 1` (and a model whose `f` and `I` produce `nx`-vectors),
the assembled NLP's constraint sequence is exactly one initial-condition block
`I(x_block[0])` of size `nx` placed first, followed by `nk - 1` continuity
blocks of size `nx` each, for a total flattened constraint length of
`nx * nk`, and the constraint bounds broadcast by `setInput(0,"lbg")` /
`setInput(0,"ubg")` make every constraint entry's lower and upper bound 0. -/
theorem nlp_constraint_shape (m : Model) (tf : ℚ) (nk nj : Nat) (v : List ℚ)
    (hnk : 1 ≤ nk) (hf : ∀ x u, (m.f x u).length = m.nx)
    (hI : ∀ x, (m.I x).length = m.nx) :
    ((transcribe m tf nk nj).constraints v).length = 1 + (nk - 1) ∧
    ((transcribe m tf nk nj).constraints v).getD 0 [] = m.I (xblockOf m v 0) ∧
    (∀ c ∈ (transcribe m tf nk nj).constraints v, c.length = m.nx) ∧
    (((transcribe m tf nk nj).constraints v).flatten).length = m.nx * nk ∧
    (transcribe m tf nk nj).lbg = 0 ∧
    (transcribe m tf nk nj).ubg = 0 := by
  have hclosed : (transcribe m tf nk nj).constraints v =
      m.I (xblockOf m v 0) ::
        (List.range (nk - 1)).map (fun k =>
          vsub (integrator m.f m.L (tf / (nk : ℚ)) nj (xblockOf m v k) (ublockOf m v k)).1
            (xblockOf m v (k + 1))) := by
    show eqList m (tf / (nk : ℚ)) nj nk v = _
    unfold eqList
    rw [assembleJEq_closed]
  have hlen : ∀ c ∈ (transcribe m tf nk nj).constraints v, c.length = m.nx := by
    rw [hclosed]
    intro c hc
    rcases List.mem_cons.mp hc with h | h
    · rw [h]; exact hI _
    · obtain ⟨k, hk, rfl⟩ := List.mem_map.mp h
      unfold vsub
      rw [List.length_zipWith,
        integrator_fst_length m.f m.L _ nj _ _ m.nx hf (xblockOf_length m v k),
        xblockOf_length]
      exact Nat.min_self m.nx
  refine ⟨?_, ?_, hlen, ?_, rfl, rfl⟩
  · rw [hclosed]; simp; omega
  · rw [hclosed]; rfl
  · have hrep : ((transcribe m tf nk nj).constraints v).map List.length =
        List.replicate ((((transcribe m tf nk nj).constraints v).map List.length).length) m.nx :=
      List.eq_replicate_of_mem (fun b hb => by
        obtain ⟨c, hc, rfl⟩ := List.mem_map.mp hb
        exact hlen c hc)
    rw [List.length_flatten, hrep, List.sum_replicate, smul_eq_mul, List.length_map]
    have hlc : ((transcribe m tf nk nj).constraints v).length = 1 + (nk - 1) := by
      rw [hclosed]; simp; omega
    rw [hlc]
    have h2 : 1 + (nk - 1) = nk := by omega
    rw [h2, Nat.mul_comm]

theorem nlp_constraint_shape_witness :
    ((transcribe trivialModel 10 2 1).constraints [1, 2, 3, 4, 5]).length = 1 + (2 - 1) ∧
    ((transcribe trivialModel 10 2 1).constraints [1, 2, 3, 4, 5]).getD 0 [] =
      trivialModel.I (xblockOf trivialModel [1, 2, 3, 4, 5] 0) ∧
    (∀ c ∈ (transcribe trivialModel 10 2 1).constraints [1, 2, 3, 4, 5],
      c.length = trivialModel.nx) ∧
    (((transcribe trivialModel 10 2 1).constraints [1, 2, 3, 4, 5]).flatten).length =
      trivialModel.nx * 2 ∧
    (transcribe trivialModel 10 2 1).lbg = 0 ∧
    (transcribe trivialModel 10 2 1).ubg = 0 :=
  nlp_constraint_shape trivialModel 10 2 1 [1, 2, 3, 4, 5] (by decide)
    (fun _ _ => rfl) (fun _ => rfl)

/-- C3: for all `nk ≥ 1`, `nx ≥ 1`, `nu ≥ 1`, the layout has total length
`nv = (nk+1)*nx + nk*nu`, and the recorded index map consists of `nk+1` state
ranges of length `nx` and `nk` control ranges of length `nu` which partition
`[0, nv)`: concatenated in allocation order they are exactly `List.range nv`,
and as a collection the blocks are pairwise disjoint and cover `[0, nv)`
exactly once (their flattening is a permutation of `List.range nv`). -/
theorem layout_partition (m : Model) (nk : Nat)
    (hnk : 1 ≤ nk) (hnx : 1 ≤ m.nx) (hnu : 1 ≤ m.nu) :
    (buildLayout m nk).nv = (nk + 1) * m.nx + nk * m.nu ∧
    (buildLayout m nk).vindx.length = nk + 1 ∧
    (buildLayout m nk).vindu.length = nk ∧
    (∀ l ∈ (buildLayout m nk).vindx, l.length = m.nx) ∧
    (∀ l ∈ (buildLayout m nk).vindu, l.length = m.nu) ∧
    ((List.range nk).flatMap (fun k => (buildLayout m nk).vindx.getD k [] ++
        (buildLayout m nk).vindu.getD k []) ++ (buildLayout m nk).vindx.getD nk [] =
      List.range ((buildLayout m nk).nv)) ∧
    List.Pairwise List.Disjoint ((buildLayout m nk).vindx ++ (buildLayout m nk).vindu) ∧
    List.Perm (((buildLayout m nk).vindx ++ (buildLayout m nk).vindu).flatten)
      (List.range ((buildLayout m nk).nv)) := by
  refine ⟨?_, ?_, ?_, ?_, ?_, ?_, ?_, vind_blocks_perm_range m nk⟩
  · rw [buildLayout_nv]; ring
  · rw [buildLayout_vindx]; simp
  · rw [buildLayout_vindu]; simp
  · rw [buildLayout_vindx]
    intro l hl
    obtain ⟨k, hk, rfl⟩ := List.mem_map.mp hl
    simp [xrange]
  · rw [buildLayout_vindu]
    intro l hl
    obtain ⟨k, hk, rfl⟩ := List.mem_map.mp hl
    simp [urange]
  · have hfm : (List.range nk).flatMap (fun k => (buildLayout m nk).vindx.getD k [] ++
        (buildLayout m nk).vindu.getD k []) =
        (List.range nk).flatMap (fun k => xrange m.nx m.nu k ++ urange m.nx m.nu k) := by
      rw [List.flatMap_def, List.flatMap_def]
      congr 1
      apply List.map_congr_left
      intro k hk
      have hk' : k < nk := List.mem_range.mp hk
      rw [buildLayout_vindx_getD m nk k (by omega), buildLayout_vindu_getD m nk k hk']
    rw [hfm, buildLayout_vindx_getD m nk nk (le_refl nk),
      interleave_with_tail_eq_range, buildLayout_nv]
  · have hperm := vind_blocks_perm_range m nk
    have hnodup : (((buildLayout m nk).vindx ++ (buildLayout m nk).vindu).flatten).Nodup :=
      hperm.nodup_iff.mpr (List.nodup_range _)
    exact (List.nodup_flatten.mp hnodup).2

theorem layout_partition_witness :
    (buildLayout trivialModel 1).nv = (1 + 1) * trivialModel.nx + 1 * trivialModel.nu ∧
    (buildLayout trivialModel 1).vindx.length = 1 + 1 ∧
    (buildLayout trivialModel 1).vindu.length = 1 ∧
    (∀ l ∈ (buildLayout trivialModel 1).vindx, l.length = trivialModel.nx) ∧
    (∀ l ∈ (buildLayout trivialModel 1).vindu, l.length = trivialModel.nu) ∧
    ((List.range 1).flatMap (fun k => (buildLayout trivialModel 1).vindx.getD k [] ++
        (buildLayout trivialModel 1).vindu.getD k []) ++
        (buildLayout trivialModel 1).vindx.getD 1 [] =
      List.range ((buildLayout trivialModel 1).nv)) ∧
    List.Pairwise List.Disjoint
      ((buildLayout trivialModel 1).vindx ++ (buildLayout trivialModel 1).vindu) ∧
    List.Perm
      (((buildLayout trivialModel 1).vindx ++ (buildLayout trivialModel 1).vindu).flatten)
      (List.range ((buildLayout trivialModel 1).nv)) :=
  layout_partition trivialModel 1 (by decide) (by decide) (by decide)

/-- C4: the interval map is exactly `nj` sequential RK4 sub-steps of size
`h = dt/nj` applied jointly to the state and the quadrature accumulator,
starting from `(x_start, 0)` and returning `(x_nj, L_nj)`: the source's
integrator loop equals the spec's recursion `specRK4`. -/
theorem integrator_is_spec_rk4 (f : List ℚ → List ℚ → List ℚ) (L : List ℚ → List ℚ → ℚ)
    (dt : ℚ) (nj : Nat) (xstart u : List ℚ) :
    integrator f L dt nj xstart u = specRK4 f L (dt / (nj : ℚ)) u xstart nj :=
  foldl_rk4 f L (dt / (nj : ℚ)) u xstart nj

/-- C5: the NLP objective equals the sum over `k = 0..nk-1` of the cost
increments returned by the interval map applied to interval `k`'s own state
and control blocks, starting from `J = 0`, with no other term. -/
theorem objective_is_interval_cost_sum (m : Model) (tf : ℚ) (nk nj : Nat) (v : List ℚ) :
    (transcribe m tf nk nj).objective v =
      ((List.range nk).map (fun k =>
        (integrator m.f m.L (tf / (nk : ℚ)) nj (xblockOf m v k) (ublockOf m v k)).2)).sum := by
  show J m (tf / (nk : ℚ)) nj nk v = _
  unfold J
  rw [assembleJEq_closed]

/-- C6: the assembled bound and initial-guess vectors all have length `nv`,
every state block of them reads back as `lb_x`/`ub_x`/`x0_guess`, and every
control block as `lb_u`/`ub_u`/`u0_guess`. -/
theorem bounds_guess_layout (m : Model) (nk : Nat)
    (hlbx : m.lbx.length = m.nx) (hubx : m.ubx.length = m.nx) (hx0 : m.x0.length = m.nx)
    (hlbu : m.lbu.length = m.nu) (hubu : m.ubu.length = m.nu) (hu0 : m.u0.length = m.nu) :
    (buildLayout m nk).lbv.length = (buildLayout m nk).nv ∧
    (buildLayout m nk).ubv.length = (buildLayout m nk).nv ∧
    (buildLayout m nk).v0.length = (buildLayout m nk).nv ∧
    (∀ k, k ≤ nk →
      extractComp (buildLayout m nk).lbv (xrange m.nx m.nu k) = m.lbx ∧
      extractComp (buildLayout m nk).ubv (xrange m.nx m.nu k) = m.ubx ∧
      extractComp (buildLayout m nk).v0 (xrange m.nx m.nu k) = m.x0) ∧
    (∀ k, k < nk →
      extractComp (buildLayout m nk).lbv (urange m.nx m.nu k) = m.lbu ∧
      extractComp (buildLayout m nk).ubv (urange m.nx m.nu k) = m.ubu ∧
      extractComp (buildLayout m nk).v0 (urange m.nx m.nu k) = m.u0) := by
  refine ⟨?_, ?_, ?_, ?_, ?_⟩
  · rw [buildLayout_lbv, flat_blocks_length, hlbx, hlbu, buildLayout_nv]
  · rw [buildLayout_ubv, flat_blocks_length, hubx, hubu, buildLayout_nv]
  · rw [buildLayout_v0, flat_blocks_length, hx0, hu0, buildLayout_nv]
  · intro k hk
    refine ⟨?_, ?_, ?_⟩
    · rw [buildLayout_lbv]; exact extract_state_block m.lbx m.lbu m.nx m.nu nk k hk hlbx hlbu
    · rw [buildLayout_ubv]; exact extract_state_block m.ubx m.ubu m.nx m.nu nk k hk hubx hubu
    · rw [buildLayout_v0]; exact extract_state_block m.x0 m.u0 m.nx m.nu nk k hk hx0 hu0
  · intro k hk
    refine ⟨?_, ?_, ?_⟩
    · rw [buildLayout_lbv]; exact extract_ctrl_block m.lbx m.lbu m.nx m.nu nk k hk hlbx hlbu
    · rw [buildLayout_ubv]; exact extract_ctrl_block m.ubx m.ubu m.nx m.nu nk k hk hubx hubu
    · rw [buildLayout_v0]; exact extract_ctrl_block m.x0 m.u0 m.nx m.nu nk k hk hx0 hu0

theorem bounds_guess_layout_witness :
    (buildLayout trivialModel 2).lbv.length = (buildLayout trivialModel 2).nv ∧
    (buildLayout trivialModel 2).ubv.length = (buildLayout trivialModel 2).nv ∧
    (buildLayout trivialModel 2).v0.length = (buildLayout trivialModel 2).nv ∧
    (∀ k, k ≤ 2 →
      extractComp (buildLayout trivialModel 2).lbv
        (xrange trivialModel.nx trivialModel.nu k) = trivialModel.lbx ∧
      extractComp (buildLayout trivialModel 2).ubv
        (xrange trivialModel.nx trivialModel.nu k) = trivialModel.ubx ∧
      extractComp (buildLayout trivialModel 2).v0
        (xrange trivialModel.nx trivialModel.nu k) = trivialModel.x0) ∧
    (∀ k, k < 2 →
      extractComp (buildLayout trivialModel 2).lbv
        (urange trivialModel.nx trivialModel.nu k) = trivialModel.lbu ∧
      extractComp (buildLayout trivialModel 2).ubv
        (urange trivialModel.nx trivialModel.nu k) = trivialModel.ubu ∧
      extractComp (buildLayout trivialModel 2).v0
        (urange trivialModel.nx trivialModel.nu k) = trivialModel.u0) :=
  bounds_guess_layout trivialModel 2 rfl rfl rfl rfl rfl rfl

/-- C7: the objective and every constraint of the assembled NLP are
independent of the trailing terminal-state block: two decision vectors that
agree on every coordinate outside the terminal-state block's index range
`[nk*(nx+nu), nk*(nx+nu)+nx)` yield the same objective value and the same
constraint values, so that block is restricted only by its box bounds. -/
theorem terminal_block_noninterference (m : Model) (tf : ℚ) (nk nj : Nat) (v w : List ℚ)
    (hnk : 1 ≤ nk)
    (hagree : ∀ i : Nat, i < nk * (m.nx + m.nu) ∨ nk * (m.nx + m.nu) + m.nx ≤ i →
      v.getD i 0 = w.getD i 0) :
    (transcribe m tf nk nj).objective v = (transcribe m tf nk nj).objective w ∧
    (transcribe m tf nk nj).constraints v = (transcribe m tf nk nj).constraints w := by
  have h := assembleJEq_congr m (tf / (nk : ℚ)) nj nk v w hnk hagree
  exact ⟨congrArg Prod.fst h, congrArg Prod.snd h⟩

theorem terminal_block_noninterference_witness :
    (transcribe trivialModel 1 1 1).objective [1, 2, 5] =
      (transcribe trivialModel 1 1 1).objective [1, 2, 9] ∧
    (transcribe trivialModel 1 1 1).constraints [1, 2, 5] =
      (transcribe trivialModel 1 1 1).constraints [1, 2, 9] :=
  terminal_block_noninterference trivialModel 1 1 1 [1, 2, 5] [1, 2, 9] (by decide)
    (by
      intro i hi
      rcases hi with hlt | hge
      · have hlt2 : i < 2 := by simpa [trivialModel] using hlt
        match i, hlt2 with
        | 0, _ => rfl
        | 1, _ => rfl
      · have hge3 : 3 ≤ i := by
          have : 1 * (trivialModel.nx + trivialModel.nu) + trivialModel.nx = 3 := by decide
          omega
        rw [List.getD_eq_default _ _ (by simp; omega),
          List.getD_eq_default _ _ (by simp; omega)])

/-- C8: from a returned decision vector, extraction via the index map yields
for each state component `i < nx` an ordered sequence of exactly `nk+1`
samples — sample `k` being precisely the `i`-th entry of state block `k`, no
interpolation — for each control component `j < nu` exactly `nk` samples, and
the associated plotting grid is the `nk+1` equally spaced times `k*(tf/nk)`. -/
theorem extraction_contract (m : Model) (tf : ℚ) (nk : Nat) (i j : Nat) (v : List ℚ)
    (hi : i < m.nx) (hj : j < m.nu) :
    (stateTraj m nk i v).length = nk + 1 ∧
    (∀ k, k ≤ nk → (stateTraj m nk i v).getD k 0 = (xblockOf m v k).getD i 0) ∧
    (ctrlTraj m nk j v).length = nk ∧
    (∀ k, k < nk → (ctrlTraj m nk j v).getD k 0 = (ublockOf m v k).getD j 0) ∧
    (tgrid tf nk).length = nk + 1 ∧
    (∀ k, k ≤ nk → (tgrid tf nk).getD k 0 = (k : ℚ) * (tf / (nk : ℚ))) := by
  refine ⟨?_, ?_, ?_, ?_, ?_, ?_⟩
  · simp [stateTraj, extractComp]
  · intro k hk
    unfold stateTraj extractComp
    rw [List.map_map, List.getD_eq_getElem _ _ (by simp; omega)]
    simp only [List.getElem_map, List.getElem_range, Function.comp_apply]
    rw [buildLayout_vindx_getD m nk k hk, xrange_getD m.nx m.nu k i hi,
      xblockOf_getD m v k i hi]
  · simp [ctrlTraj, extractComp]
  · intro k hk
    unfold ctrlTraj extractComp
    rw [List.map_map, List.getD_eq_getElem _ _ (by simp; omega)]
    simp only [List.getElem_map, List.getElem_range, Function.comp_apply]
    rw [buildLayout_vindu_getD m nk k hk, urange_getD m.nx m.nu k j hj,
      ublockOf_getD m v k j hj]
  · unfold tgrid
    rw [List.length_map, List.length_range]
  · intro k hk
    unfold tgrid
    rw [List.getD_eq_getElem _ _ (by rw [List.length_map, List.length_range]; omega)]
    simp only [List.getElem_map, List.getElem_range]

theorem extraction_contract_witness :
    (stateTraj trivialModel 1 0 [1, 2, 3]).length = 1 + 1 ∧
    (∀ k, k ≤ 1 → (stateTraj trivialModel 1 0 [1, 2, 3]).getD k 0 =
      (xblockOf trivialModel [1, 2, 3] k).getD 0 0) ∧
    (ctrlTraj trivialModel 1 0 [1, 2, 3]).length = 1 ∧
    (∀ k, k < 1 → (ctrlTraj trivialModel 1 0 [1, 2, 3]).getD k 0 =
      (ublockOf trivialModel [1, 2, 3] k).getD 0 0) ∧
    (tgrid 4 1).length = 1 + 1 ∧
    (∀ k, k ≤ 1 → (tgrid 4 1).getD k 0 = (k : ℚ) * ((4 : ℚ) / ((1 : Nat) : ℚ))) :=
  extraction_contract trivialModel 4 1 0 0 [1, 2, 3] (by decide) (by decide)

/-- C9: with the spec-mandated validation in place, any `nk < 1` (in
particular `nk = 0`) makes the transcriber return `ConfigurationError`
immediately — for every model and every other configuration value, so no
layout, integration or constraint construction is performed. -/
theorem invalid_nk_configuration_error (m : Model) (tf : ℚ) (nk nj : Nat) (hnk : nk < 1) :
    transcribeChecked m tf nk nj = Except.error TranscribeError.configurationError := by
  unfold transcribeChecked
  rw [if_pos hnk]

theorem invalid_nk_configuration_error_witness :
    transcribeChecked trivialModel 150 0 10 =
      Except.error TranscribeError.configurationError :=
  invalid_nk_configuration_error trivialModel 150 0 10 (by decide)

/-- C10: the state output of the interval map is independent of the
running-cost function: for any two cost rates `L` and `L'`, the integrators
built from `(f, L)` and `(f, L')` produce the same `x_end` — the quadrature
accumulator never feeds back into the state recursion. -/
theorem state_output_indep_of_cost (f : List ℚ → List ℚ → List ℚ)
    (L L' : List ℚ → List ℚ → ℚ) (dt : ℚ) (nj : Nat) (xstart u : List ℚ) :
    (integrator f L dt nj xstart u).1 = (integrator f L' dt nj xstart u).1 := by
  unfold integrator
  exact rk4Loop_fst_indep f L L' (dt / (nj : ℚ)) u (List.range nj) xstart 0 0

end ModelicaMS

